import Mathlib

set_option linter.unusedVariables false

/-!
Verification of the capgrok capability codec and statement verifier.

The repository source provides `verify_statement` and the constant
`RESOURCE_PREFIX` (src/src/lib.rs).  The supporting modules (namespace,
capability, set, translation, builder, error) are declared in lib.rs but their
files are not part of the sources available here, so those components are
modelled from the specification, faithful to its words; every such definition
carries a doc comment saying so.
-/

namespace Capgrok

/-- Error taxonomy of the library.  Modelled from the spec: the shared failure
taxonomy `InvalidNamespace`, `InvalidAction`, `EncodingFailure`,
`DecodingFailure` (spec section 7, module `error` missing from the sources). -/
inductive Error where
  | InvalidNamespace : Error
  | InvalidAction : Error
  | EncodingFailure : Error
  | DecodingFailure : Error
deriving DecidableEq

instance {ε α : Type} [DecidableEq ε] [DecidableEq α] : DecidableEq (Except ε α) := fun a b =>
  match a, b with
  | .ok x, .ok y =>
    if h : x = y then .isTrue (by rw [h]) else .isFalse (by intro hc; cases hc; exact h rfl)
  | .error x, .error y =>
    if h : x = y then .isTrue (by rw [h]) else .isFalse (by intro hc; cases hc; exact h rfl)
  | .ok _, .error _ => .isFalse (by intro hc; cases hc)
  | .error _, .ok _ => .isFalse (by intro hc; cases hc)

/-- Modelled from the spec: the namespace grammar is identifier-like, letters,
digits and a small fixed set of separators (spec section 4.1, module
`namespace` missing from the sources).  The delimiter character is excluded. -/
def nsCharOk (c : Char) : Bool := c.isAlphanum || c == '-' || c == '_' || c == '.'

/-- Modelled from the spec: a validated grouping identifier, equality by raw
text (spec section 3, module `namespace` missing from the sources). -/
structure Namespace where
  text : String
deriving DecidableEq

/-- Grammar validity of a namespace value: non-empty and every character in
the allowed grammar. -/
def Namespace.validB (n : Namespace) : Bool :=
  !n.text.data.isEmpty && n.text.data.all nsCharOk

/-- Modelled from the spec: the validating factory; invalid input yields a
typed failure (spec section 4.1). -/
def Namespace.parse (s : String) : Except Error Namespace :=
  if !s.data.isEmpty && s.data.all nsCharOk then .ok ⟨s⟩ else .error .InvalidNamespace

/-- Modelled from the spec: one namespace entry of a Set, holding the set of
default actions and an ordered mapping from resource identifier to the set of
actions specific to that resource (spec section 3, module `capability` missing
from the sources). -/
structure Capability where
  defaultActions : List String
  resourceActions : List (String × List String)
deriving DecidableEq

/-- Sorted-insert of an action into an action list, skipping duplicates; used
to realise deduplicated action sets with union as insert. -/
def insertAct (a : String) : List String → List String
  | [] => [a]
  | b :: l => if a < b then a :: b :: l else if a = b then b :: l else b :: insertAct a l

/-- Union of two deduplicated action lists. -/
def unionActs (l m : List String) : List String := m.foldl (fun acc a => insertAct a acc) l

/-- Canonical (deduplicated) form of an action list. -/
def canonActs (l : List String) : List String := unionActs [] l

/-- Sorted-insert of a resource entry into a resource mapping, unioning the
action lists when the resource is already present. -/
def insertRes (r : String) (acts : List String) :
    List (String × List String) → List (String × List String)
  | [] => [(r, acts)]
  | (k, v) :: l =>
    if r < k then (r, acts) :: (k, v) :: l
    else if r = k then (k, unionActs v acts) :: l
    else (k, v) :: insertRes r acts l

/-- Union of two resource mappings, resource-by-resource. -/
def unionRes (l m : List (String × List String)) : List (String × List String) :=
  m.foldl (fun acc p => insertRes p.1 p.2 acc) l

/-- Modelled from the spec: union of two namespace entries, default-by-default
and resource-by-resource (spec section 4.2, module `capability` missing from
the sources). -/
def Capability.merge (c d : Capability) : Capability :=
  ⟨unionActs c.defaultActions d.defaultActions, unionRes c.resourceActions d.resourceActions⟩

/-- Modelled from the spec: the canonical aggregate of all declared grants,
keyed by Namespace, as an ordered associative structure whose insert is a
union (spec sections 3 and 9, module `set` missing from the sources). -/
structure Set where
  entries : List (Namespace × Capability)
deriving DecidableEq

/-- Association-list insert of a namespace entry: union with the existing
entry for the namespace, or append a new entry at the end. -/
def mergeInto (n : Namespace) (c : Capability) :
    List (Namespace × Capability) → List (Namespace × Capability)
  | [] => [(n, c)]
  | (m, d) :: l =>
    if n = m then (m, Capability.merge d c) :: l else (m, d) :: mergeInto n c l

/-- Merge one namespace entry into a Set via the union-merge. -/
def Set.mergeEntry (s : Set) (n : Namespace) (c : Capability) : Set :=
  ⟨mergeInto n c s.entries⟩

/-- Modelled from the spec: `add_default_actions` unions actions into the
namespace entry, creating it if absent (spec section 4.2). -/
def Set.addDefaultActions (s : Set) (n : Namespace) (acts : List String) : Set :=
  s.mergeEntry n ⟨canonActs acts, []⟩

/-- Modelled from the spec: `add_resource_actions` unions actions into the
resource entry under the namespace, creating entries as needed
(spec section 4.2). -/
def Set.addResourceActions (s : Set) (n : Namespace) (r : String) (acts : List String) : Set :=
  s.mergeEntry n ⟨[], [(r, canonActs acts)]⟩

/-- Modelled from the spec: `merge` unions two Sets namespace-by-namespace
(spec section 4.2). -/
def Set.merge (s t : Set) : Set :=
  t.entries.foldl (fun acc p => acc.mergeEntry p.1 p.2) s

/-- Modelled from the spec: `is_empty` (spec section 4.2). -/
def Set.isEmptyB (s : Set) : Bool := s.entries.isEmpty

/-- Little-endian base-128 variable-length natural, with fuel for structural
recursion; the continuation bit is the high bit of each byte. -/
def varNatAux : Nat → Nat → List Nat
  | 0, _ => []
  | fuel + 1, n => if n < 128 then [n] else (n % 128 + 128) :: varNatAux fuel (n / 128)

/-- Variable-length encoding of a natural number as bytes. -/
def varNat (n : Nat) : List Nat := varNatAux (n + 1) n

/-- Reads one variable-length natural from the front of a byte list. -/
def parseVarNat : List Nat → Except Error (Nat × List Nat)
  | [] => .error .DecodingFailure
  | b :: rest =>
    if b < 128 then .ok (b, rest)
    else
      match parseVarNat rest with
      | .error e => .error e
      | .ok (n, r) => .ok (n * 128 + (b - 128), r)

/-- Modelled from the spec: serialization of one text value inside the compact
structured payload (spec section 4.3, module `translation` missing from the
sources); character count followed by the code of each character. -/
def serString (s : String) : List Nat :=
  varNat s.data.length ++ (s.data.map (fun c => varNat c.toNat)).flatten

/-- Serialization of a list of text values: count then each value. -/
def serStrList (l : List String) : List Nat :=
  varNat l.length ++ (l.map serString).flatten

/-- Serialization of one resource mapping entry: the resource text then its
action list. -/
def serResEntry (p : String × List String) : List Nat := serString p.1 ++ serStrList p.2

/-- Serialization of a resource mapping: count then each entry. -/
def serResList (l : List (String × List String)) : List Nat :=
  varNat l.length ++ (l.map serResEntry).flatten

/-- Modelled from the spec: the compact structured payload of one namespace
entry, a record with at most two members where absent members are omitted
rather than encoded as empty (spec sections 4.3 and 6); a leading flags byte
records which members are present. -/
def serCapability (c : Capability) : List Nat :=
  ((if c.defaultActions.isEmpty then 0 else 1) +
      (if c.resourceActions.isEmpty then 0 else 2)) ::
    ((if c.defaultActions.isEmpty then [] else serStrList c.defaultActions) ++
      (if c.resourceActions.isEmpty then [] else serResList c.resourceActions))

/-- Reads a fixed number of characters (each one a variable-length code) from
a byte list. -/
def parseChars : Nat → List Nat → Except Error (List Char × List Nat)
  | 0, bs => .ok ([], bs)
  | k + 1, bs =>
    match parseVarNat bs with
    | .error e => .error e
    | .ok (n, bs2) =>
      if Nat.isValidChar n then
        match parseChars k bs2 with
        | .error e => .error e
        | .ok (cs, rest) => .ok (Char.ofNat n :: cs, rest)
      else .error .DecodingFailure

/-- Reads one text value from a byte list. -/
def parseStringBytes (bs : List Nat) : Except Error (String × List Nat) :=
  match parseVarNat bs with
  | .error e => .error e
  | .ok (n, bs2) =>
    match parseChars n bs2 with
    | .error e => .error e
    | .ok (cs, rest) => .ok (String.mk cs, rest)

/-- Reads a fixed number of text values from a byte list. -/
def parseStringsN : Nat → List Nat → Except Error (List String × List Nat)
  | 0, bs => .ok ([], bs)
  | k + 1, bs =>
    match parseStringBytes bs with
    | .error e => .error e
    | .ok (s, bs2) =>
      match parseStringsN k bs2 with
      | .error e => .error e
      | .ok (l, rest) => .ok (s :: l, rest)

/-- Reads a list of text values (count then each value) from a byte list. -/
def parseStringList (bs : List Nat) : Except Error (List String × List Nat) :=
  match parseVarNat bs with
  | .error e => .error e
  | .ok (n, bs2) => parseStringsN n bs2

/-- Reads a fixed number of resource mapping entries from a byte list. -/
def parseResEntriesN : Nat → List Nat → Except Error (List (String × List String) × List Nat)
  | 0, bs => .ok ([], bs)
  | k + 1, bs =>
    match parseStringBytes bs with
    | .error e => .error e
    | .ok (r, bs2) =>
      match parseStringList bs2 with
      | .error e => .error e
      | .ok (acts, bs3) =>
        match parseResEntriesN k bs3 with
        | .error e => .error e
        | .ok (l, rest) => .ok ((r, acts) :: l, rest)

/-- Reads a resource mapping (count then each entry) from a byte list. -/
def parseResListBytes (bs : List Nat) :
    Except Error (List (String × List String) × List Nat) :=
  match parseVarNat bs with
  | .error e => .error e
  | .ok (n, bs2) => parseResEntriesN n bs2

/-- Modelled from the spec: decoding of the structured payload, failing with
`DecodingFailure` on a malformed shape (spec section 4.4); the whole byte list
must be consumed. -/
def parseCapabilityBytes (bs : List Nat) : Except Error Capability :=
  match bs with
  | [] => .error .DecodingFailure
  | flags :: rest =>
    if flags < 4 then
      match (if flags % 2 == 1 then parseStringList rest else .ok ([], rest)) with
      | .error e => .error e
      | .ok (defs, bs2) =>
        match (if flags / 2 == 1 then parseResListBytes bs2 else .ok ([], bs2)) with
        | .error e => .error e
        | .ok (res, bs3) =>
          match bs3 with
          | [] => .ok ⟨defs, res⟩
          | _ :: _ => .error .DecodingFailure
    else .error .DecodingFailure

/-- Alphabet of the URL-safe binary-to-text encoding. -/
def b64Alphabet : List Char :=
  "ABCDEFGHIJKLMNOPQRSTUVWXYZabcdefghijklmnopqrstuvwxyz0123456789-_".data

/-- Character for a six-bit value. -/
def b64Char (n : Nat) : Char := b64Alphabet.getD n 'A'

/-- Six-bit value of a character, failing on characters outside the
alphabet. -/
def b64Val (c : Char) : Except Error Nat :=
  match b64Alphabet.findIdx? (· == c) with
  | some i => .ok i
  | none => .error .DecodingFailure

/-- Modelled from the spec: the URL-safe, unpadded binary-to-text encoding of
a byte sequence (spec sections 4.3 and 6). -/
def b64EncodeBytes : List Nat → List Char
  | [] => []
  | [a] => [b64Char (a / 4), b64Char (a % 4 * 16)]
  | [a, b] => [b64Char (a / 4), b64Char (a % 4 * 16 + b / 16), b64Char (b % 16 * 4)]
  | a :: b :: c :: rest =>
    b64Char (a / 4) :: b64Char (a % 4 * 16 + b / 16) :: b64Char (b % 16 * 4 + c / 64) ::
      b64Char (c % 64) :: b64EncodeBytes rest

/-- Decoding of the URL-safe, unpadded binary-to-text encoding, failing with
`DecodingFailure` on invalid characters or a truncated tail. -/
def b64DecodeChars : List Char → Except Error (List Nat)
  | [] => .ok []
  | [_] => .error .DecodingFailure
  | [w, x] => do
    let s1 ← b64Val w
    let s2 ← b64Val x
    .ok [s1 * 4 + s2 / 16]
  | [w, x, y] => do
    let s1 ← b64Val w
    let s2 ← b64Val x
    let s3 ← b64Val y
    .ok [s1 * 4 + s2 / 16, s2 % 16 * 16 + s3 / 4]
  | w :: x :: y :: z :: rest => do
    let s1 ← b64Val w
    let s2 ← b64Val x
    let s3 ← b64Val y
    let s4 ← b64Val z
    let tail ← b64DecodeChars rest
    .ok ((s1 * 4 + s2 / 16) :: (s2 % 16 * 16 + s3 / 4) :: (s3 % 4 * 64 + s4) :: tail)

/-- Embedding of the Rust `str::starts_with` used on resource entries:
character-for-character prefix comparison. -/
def strHasPre (p s : String) : Bool := decide (p.data <+: s.data)

/-- Embedding of the Rust `str::ends_with` used on statements:
character-for-character suffix comparison. -/
def strEndsWith (s t : String) : Bool := decide (t.data <:+ s.data)

/-- The prefix for a capgrok uri (src/src/lib.rs line 18). -/
def RESOURCE_PREFIX : String := "urn:capability:"

/-- Modelled from the spec: `encode_namespace` serializes one namespace entry
into the wire form prefix, namespace text, delimiter, then the URL-safe
unpadded binary-to-text encoding of the structured payload (spec sections 4.3
and 6, module `translation` missing from the sources). -/
def encode_namespace (n : Namespace) (c : Capability) : String :=
  RESOURCE_PREFIX ++ n.text ++ ":" ++ String.mk (b64EncodeBytes (serCapability c))

/-- Modelled from the spec: decoding of one capability resource entry, already
known to bear the prefix: the substring up to the next delimiter is parsed as
a Namespace (failing with `InvalidNamespace` on violation), the remainder is
decoded as URL-safe binary-to-text then as the structured payload (spec
section 4.4, module `translation` missing from the sources). -/
def parseCapResource (r : String) : Except Error (Namespace × Capability) :=
  let rest := r.data.drop RESOURCE_PREFIX.data.length
  let nsChars := rest.takeWhile (fun c => c != ':')
  match rest.dropWhile (fun c => c != ':') with
  | [] => .error .DecodingFailure
  | _ :: payloadChars =>
    if !nsChars.isEmpty && nsChars.all nsCharOk then
      match b64DecodeChars payloadChars with
      | .error e => .error e
      | .ok bytes =>
        match parseCapabilityBytes bytes with
        | .error e => .error e
        | .ok c => .ok (⟨String.mk nsChars⟩, c)
    else .error .InvalidNamespace

/-- Processing of one resource entry during extraction: entries not bearing
the prefix are ignored, the rest are decoded and union-merged. -/
def processResource (s : Set) (r : String) : Except Error Set :=
  if strHasPre RESOURCE_PREFIX r then
    match parseCapResource r with
    | .error e => .error e
    | .ok (n, c) => .ok (s.mergeEntry n c)
  else .ok s

/-- Left-to-right scan of a resource list, accumulating a Set. -/
def extractFrom (s : Set) : List String → Except Error Set
  | [] => .ok s
  | r :: rest =>
    match processResource s r with
    | .error e => .error e
    | .ok s2 => extractFrom s2 rest

/-- The sign-in message record, with the fields of the external collaborator
visible in src/src/lib.rs; only `statement`, `uri` and `resources` are read
or written by this library. -/
structure Message where
  domain : String
  address : String
  statement : Option String
  uri : String
  version : Nat
  chain_id : Nat
  nonce : String
  issued_at : String
  expiration_time : Option String
  not_before : Option String
  request_id : Option String
  resources : List String
deriving DecidableEq

/-- Modelled from the spec: `extract_capabilities` scans `message.resources`
in order and union-merges every decoded capability entry (spec section 4.4,
module `translation` missing from the sources). -/
def extract_capabilities (m : Message) : Except Error Set :=
  extractFrom ⟨[]⟩ m.resources

/-- Clause for one default action of a namespace. -/
def actionClause (n : Namespace) (a : String) : String :=
  " action " ++ a ++ " under namespace " ++ n.text ++ ";"

/-- Clause for one action on one resource of a namespace. -/
def resourceClause (n : Namespace) (r : String) (a : String) : String :=
  " action " ++ a ++ " under namespace " ++ n.text ++ " for resource " ++ r ++ ";"

/-- Clauses of one namespace entry: one per default action, then one per
resource and action pair. -/
def capClauses (n : Namespace) (c : Capability) : String :=
  String.join (c.defaultActions.map (actionClause n)) ++
    String.join (c.resourceActions.map (fun p => String.join (p.2.map (resourceClause n p.1))))

/-- Fixed framing sentence of the generated statement, naming the delegate
next. -/
def statementHead : String :=
  "By signing this message I am granting the following capabilities to "

/-- Enumerated clauses of the generated statement, after the delegate uri. -/
def statementTail (s : Set) : String :=
  ":" ++ String.join (s.entries.map (fun p => capClauses p.1 p.2))

/-- Text of the generated statement for a non-empty Set. -/
def statementOf (s : Set) (uri : String) : String :=
  statementHead ++ uri ++ statementTail s

/-- Modelled from the spec: `capabilities_to_statement` returns no text when
the Set is empty, otherwise the fixed framing sentence naming the uri followed
by one enumerated clause per granted action (spec section 4.3, module
`translation` missing from the sources). -/
def capabilities_to_statement (s : Set) (uri : String) : Option String :=
  if s.entries.isEmpty then none else some (statementOf s uri)

/-- Modelled from the spec: the Builder state, an accumulating Set
(spec section 4.6, module `builder` missing from the sources). -/
structure Builder where
  set : Set

/-- Builder with no declarations. -/
def Builder.new : Builder := ⟨⟨[]⟩⟩

/-- Modelled from the spec: fluent wrapper over `add_default_actions`
(spec section 4.6). -/
def Builder.with_default_actions (b : Builder) (n : Namespace) (acts : List String) : Builder :=
  ⟨b.set.addDefaultActions n acts⟩

/-- Modelled from the spec: fluent wrapper over `add_resource_actions`
(spec section 4.6). -/
def Builder.with_actions (b : Builder) (n : Namespace) (r : String) (acts : List String) :
    Builder :=
  ⟨b.set.addResourceActions n r acts⟩

/-- Modelled from the spec: `build` appends the generated statement to the
original statement via a fixed separator when the Set is non-empty (no
separator when there was no original statement), leaves the message unchanged
when the Set is empty, and appends one encoded URI per namespace after the
original resources (spec section 4.6, module `builder` missing from the
sources). -/
def buildWith (s : Set) (m : Message) : Message :=
  match capabilities_to_statement s m.uri with
  | none => m
  | some g =>
    { m with
      statement := some (match m.statement with
        | none => g
        | some o => o ++ " " ++ g),
      resources := m.resources ++ s.entries.map (fun p => encode_namespace p.1 p.2) }

/-- Finalizes the builder against a message. -/
def Builder.build (b : Builder) (m : Message) : Message := buildWith b.set m

/-- Verifies a capgrok statement (src/src/lib.rs lines 24 to 33): extracts the
capability Set, regenerates the statement from it and the message uri, and
compares with the three-way case split of the source. -/
def verify_statement (m : Message) : Except Error Bool :=
  match extract_capabilities m with
  | .error e => .error e
  | .ok capabilities =>
    let generated := capabilities_to_statement capabilities m.uri
    .ok (match m.statement, generated with
      | none, none => true
      | some o, some g => strEndsWith o g
      | _, _ => false)

/-- Well-formedness of a Set as produced by the declaration operations:
namespace keys are distinct and grammar-valid. -/
def Set.Wf (s : Set) : Prop :=
  (s.entries.map (fun p => p.1)).Nodup ∧ ∀ p ∈ s.entries, p.1.validB = true

instance (s : Set) : Decidable s.Wf := by
  unfold Set.Wf
  infer_instance

end Capgrok

namespace Capgrok

theorem varNatAux_lt : ∀ (fuel n b : Nat), b ∈ varNatAux fuel n → b < 256
  | 0, n, b => by simp [varNatAux]
  | fuel + 1, n, b => by
    simp only [varNatAux]
    split
    · intro h
      simp only [List.mem_singleton] at h
      omega
    · intro h
      simp only [List.mem_cons] at h
      rcases h with h | h
      · omega
      · exact varNatAux_lt fuel (n / 128) b h

theorem varNat_lt (n b : Nat) (h : b ∈ varNat n) : b < 256 :=
  varNatAux_lt (n + 1) n b h

theorem parseVarNat_varNatAux : ∀ (fuel n : Nat) (t : List Nat), n < fuel →
    parseVarNat (varNatAux fuel n ++ t) = .ok (n, t)
  | 0, n, t, h => absurd h (Nat.not_lt_zero n)
  | fuel + 1, n, t, h => by
    by_cases h128 : n < 128
    · simp [varNatAux, h128, parseVarNat]
    · have hdiv : n / 128 < fuel := by omega
      have hrec := parseVarNat_varNatAux fuel (n / 128) t hdiv
      have heq : n / 128 * 128 + (n % 128 + 128 - 128) = n := by omega
      simp only [varNatAux, if_neg h128, List.cons_append, parseVarNat,
        if_neg (show ¬ n % 128 + 128 < 128 by omega), hrec, heq]

theorem parseVarNat_varNat (n : Nat) (t : List Nat) :
    parseVarNat (varNat n ++ t) = .ok (n, t) :=
  parseVarNat_varNatAux (n + 1) n t (Nat.lt_succ_self n)

theorem parseChars_flatten : ∀ (cs : List Char) (t : List Nat),
    parseChars cs.length ((cs.map (fun c => varNat c.toNat)).flatten ++ t) = .ok (cs, t)
  | [], t => by simp [parseChars]
  | c :: cs, t => by
    simp only [List.map_cons, List.flatten_cons, List.length_cons, List.append_assoc,
      parseChars, parseVarNat_varNat, parseChars_flatten cs t, Char.ofNat_toNat]
    exact if_pos c.valid

theorem parseStringBytes_ser (s : String) (t : List Nat) :
    parseStringBytes (serString s ++ t) = .ok (s, t) := by
  simp only [serString, parseStringBytes, List.append_assoc, parseVarNat_varNat,
    parseChars_flatten]

theorem parseStringsN_ser : ∀ (l : List String) (t : List Nat),
    parseStringsN l.length ((l.map serString).flatten ++ t) = .ok (l, t)
  | [], t => by simp [parseStringsN]
  | s :: l, t => by
    simp only [List.map_cons, List.flatten_cons, List.length_cons, List.append_assoc,
      parseStringsN, parseStringBytes_ser, parseStringsN_ser l t]

theorem parseStringList_ser (l : List String) (t : List Nat) :
    parseStringList (serStrList l ++ t) = .ok (l, t) := by
  simp only [serStrList, parseStringList, List.append_assoc, parseVarNat_varNat,
    parseStringsN_ser]

theorem parseResEntriesN_ser : ∀ (l : List (String × List String)) (t : List Nat),
    parseResEntriesN l.length ((l.map serResEntry).flatten ++ t) = .ok (l, t)
  | [], t => by simp [parseResEntriesN]
  | p :: l, t => by
    simp only [List.map_cons, List.flatten_cons, List.length_cons, List.append_assoc,
      parseResEntriesN, serResEntry, parseStringBytes_ser, parseStringList_ser,
      parseResEntriesN_ser l t]

theorem parseResListBytes_ser (l : List (String × List String)) (t : List Nat) :
    parseResListBytes (serResList l ++ t) = .ok (l, t) := by
  simp only [serResList, parseResListBytes, List.append_assoc, parseVarNat_varNat,
    parseResEntriesN_ser]

theorem parseCapabilityBytes_ser (c : Capability) :
    parseCapabilityBytes (serCapability c) = .ok c := by
  obtain ⟨defs, res⟩ := c
  simp only [serCapability, parseCapabilityBytes]
  by_cases hd : defs.isEmpty <;> by_cases hr : res.isEmpty <;>
    simp only [hd, hr, if_true, if_false, List.nil_append, List.append_nil]
  · have hd2 : defs = [] := by simpa [List.isEmpty_iff] using hd
    have hr2 : res = [] := by simpa [List.isEmpty_iff] using hr
    simp [hd2, hr2]
  · have hd2 : defs = [] := by simpa [List.isEmpty_iff] using hd
    have h1 : parseResListBytes (serResList res ++ []) = .ok (res, []) :=
      parseResListBytes_ser res []
    rw [List.append_nil] at h1
    simp [hd2, h1]
  · have hr2 : res = [] := by simpa [List.isEmpty_iff] using hr
    have h1 : parseStringList (serStrList defs ++ []) = .ok (defs, []) :=
      parseStringList_ser defs []
    rw [List.append_nil] at h1
    simp [hr2, h1]
  · have h1 := parseStringList_ser defs (serResList res)
    have h2 : parseResListBytes (serResList res ++ []) = .ok (res, []) :=
      parseResListBytes_ser res []
    rw [List.append_nil] at h2
    simp [h1, h2]

end Capgrok

namespace Capgrok

theorem serString_lt (s : String) : ∀ b ∈ serString s, b < 256 := by
  intro b hb
  simp only [serString, List.mem_append, List.mem_flatten, List.mem_map] at hb
  rcases hb with hb | ⟨l, ⟨c, hc, rfl⟩, hb⟩
  · exact varNat_lt _ b hb
  · exact varNat_lt _ b hb

theorem serStrList_lt (l : List String) : ∀ b ∈ serStrList l, b < 256 := by
  intro b hb
  simp only [serStrList, List.mem_append, List.mem_flatten, List.mem_map] at hb
  rcases hb with hb | ⟨bs, ⟨s, hs, rfl⟩, hb⟩
  · exact varNat_lt _ b hb
  · exact serString_lt s b hb

theorem serResEntry_lt (p : String × List String) : ∀ b ∈ serResEntry p, b < 256 := by
  intro b hb
  simp only [serResEntry, List.mem_append] at hb
  rcases hb with hb | hb
  · exact serString_lt p.1 b hb
  · exact serStrList_lt p.2 b hb

theorem serResList_lt (l : List (String × List String)) : ∀ b ∈ serResList l, b < 256 := by
  intro b hb
  simp only [serResList, List.mem_append, List.mem_flatten, List.mem_map] at hb
  rcases hb with hb | ⟨bs, ⟨p, hp, rfl⟩, hb⟩
  · exact varNat_lt _ b hb
  · exact serResEntry_lt p b hb

theorem serCapability_lt (c : Capability) : ∀ b ∈ serCapability c, b < 256 := by
  intro b hb
  simp only [serCapability, List.mem_cons, List.mem_append] at hb
  rcases hb with hb | hb | hb
  · subst hb
    split <;> split <;> omega
  · rcases hd : c.defaultActions.isEmpty with h | h <;> rw [hd] at hb
    · exact serStrList_lt _ b hb
    · simp at hb
  · rcases hd : c.resourceActions.isEmpty with h | h <;> rw [hd] at hb
    · exact serResList_lt _ b hb
    · simp at hb

theorem b64Val_b64Char : ∀ n < 64, b64Val (b64Char n) = .ok n := by decide

theorem b64_roundtrip : ∀ (bs : List Nat), (∀ b ∈ bs, b < 256) →
    b64DecodeChars (b64EncodeBytes bs) = .ok bs
  | [], h => rfl
  | [a], h => by
    have ha : a < 256 := h a (by simp)
    simp only [b64EncodeBytes, b64DecodeChars,
      b64Val_b64Char (a / 4) (by omega), b64Val_b64Char (a % 4 * 16) (by omega)]
    simp only [Except.bind, bind]
    have : a / 4 * 4 + a % 4 * 16 / 16 = a := by omega
    rw [this]
  | [a, b], h => by
    have ha : a < 256 := h a (by simp)
    have hb : b < 256 := h b (by simp)
    simp only [b64EncodeBytes, b64DecodeChars,
      b64Val_b64Char (a / 4) (by omega), b64Val_b64Char (a % 4 * 16 + b / 16) (by omega),
      b64Val_b64Char (b % 16 * 4) (by omega)]
    simp only [Except.bind, bind]
    have h1 : a / 4 * 4 + (a % 4 * 16 + b / 16) / 16 = a := by omega
    have h2 : (a % 4 * 16 + b / 16) % 16 * 16 + b % 16 * 4 / 4 = b := by omega
    rw [h1, h2]
  | a :: b :: c :: rest, h => by
    have ha : a < 256 := h a (by simp)
    have hb : b < 256 := h b (by simp)
    have hc : c < 256 := h c (by simp)
    have hrest : ∀ x ∈ rest, x < 256 := fun x hx => h x (by simp [hx])
    have hrec := b64_roundtrip rest hrest
    simp only [b64EncodeBytes, b64DecodeChars,
      b64Val_b64Char (a / 4) (by omega), b64Val_b64Char (a % 4 * 16 + b / 16) (by omega),
      b64Val_b64Char (b % 16 * 4 + c / 64) (by omega), b64Val_b64Char (c % 64) (by omega)]
    simp only [Except.bind, bind, hrec]
    have h1 : a / 4 * 4 + (a % 4 * 16 + b / 16) / 16 = a := by omega
    have h2 : (a % 4 * 16 + b / 16) % 16 * 16 + (b % 16 * 4 + c / 64) / 4 = b := by omega
    have h3 : (b % 16 * 4 + c / 64) % 4 * 64 + c % 64 = c := by omega
    rw [h1, h2, h3]

end Capgrok

namespace Capgrok

theorem nsCharOk_ne_delim (c : Char) (h : nsCharOk c = true) : (c != ':') = true := by
  by_cases hc : c = ':'
  · subst hc
    exact absurd h (by decide)
  · simp [bne_iff_ne, hc]

theorem takeWhile_delim : ∀ (l1 l2 : List Char), (∀ c ∈ l1, (c != ':') = true) →
    (l1 ++ ':' :: l2).takeWhile (fun c => c != ':') = l1
  | [], l2, h => by simp
  | c :: l1, l2, h => by
    have hc : (c != ':') = true := h c (by simp)
    simp only [List.cons_append, List.takeWhile_cons, hc, if_true]
    rw [takeWhile_delim l1 l2 (fun x hx => h x (by simp [hx]))]

theorem dropWhile_delim : ∀ (l1 l2 : List Char), (∀ c ∈ l1, (c != ':') = true) →
    (l1 ++ ':' :: l2).dropWhile (fun c => c != ':') = ':' :: l2
  | [], l2, h => by simp
  | c :: l1, l2, h => by
    have hc : (c != ':') = true := h c (by simp)
    simp only [List.cons_append, List.dropWhile_cons, hc, if_true]
    exact dropWhile_delim l1 l2 (fun x hx => h x (by simp [hx]))

theorem encode_namespace_data (n : Namespace) (c : Capability) :
    (encode_namespace n c).data =
      RESOURCE_PREFIX.data ++ (n.text.data ++ (':' :: b64EncodeBytes (serCapability c))) := by
  simp [encode_namespace, String.data_append, List.append_assoc]

theorem strHasPre_encode (n : Namespace) (c : Capability) :
    strHasPre RESOURCE_PREFIX (encode_namespace n c) = true := by
  simp only [strHasPre, encode_namespace_data, decide_eq_true_eq]
  exact List.prefix_append _ _

theorem parseCapResource_encode (n : Namespace) (c : Capability) (hv : n.validB = true) :
    parseCapResource (encode_namespace n c) = .ok (n, c) := by
  have hv2 := hv
  simp only [Namespace.validB, Bool.and_eq_true] at hv2
  obtain ⟨hne, hall⟩ := hv2
  have hchars : ∀ ch ∈ n.text.data, (ch != ':') = true := by
    intro ch hch
    exact nsCharOk_ne_delim ch (by
      rw [List.all_eq_true] at hall
      exact hall ch hch)
  have hdec : b64DecodeChars (b64EncodeBytes (serCapability c)) = .ok (serCapability c) :=
    b64_roundtrip _ (serCapability_lt c)
  simp only [parseCapResource, encode_namespace_data, List.drop_left,
    takeWhile_delim _ _ hchars, dropWhile_delim _ _ hchars]
  rw [if_pos (by simp [hne, hall])]
  simp only [hdec, parseCapabilityBytes_ser]

end Capgrok

namespace Capgrok

theorem extractFrom_append : ∀ (s : Set) (l1 l2 : List String),
    extractFrom s (l1 ++ l2) =
      (match extractFrom s l1 with
        | .error e => .error e
        | .ok s2 => extractFrom s2 l2)
  | s, [], l2 => by simp [extractFrom]
  | s, r :: l1, l2 => by
    simp only [List.cons_append, extractFrom]
    cases processResource s r with
    | error e => rfl
    | ok s2 => exact extractFrom_append s2 l1 l2

theorem extractFrom_skip : ∀ (s : Set) (l : List String),
    (∀ r ∈ l, strHasPre RESOURCE_PREFIX r = false) → extractFrom s l = .ok s
  | s, [], h => rfl
  | s, r :: l, h => by
    have hr : strHasPre RESOURCE_PREFIX r = false := h r (by simp)
    simp only [extractFrom, processResource, hr, Bool.false_eq_true, if_false]
    exact extractFrom_skip s l (fun x hx => h x (by simp [hx]))

theorem mergeInto_absent : ∀ (l : List (Namespace × Capability)) (n : Namespace)
    (c : Capability), n ∉ l.map (fun p => p.1) → mergeInto n c l = l ++ [(n, c)]
  | [], n, c, h => rfl
  | (m, d) :: l, n, c, h => by
    simp only [List.map_cons, List.mem_cons, not_or] at h
    simp only [mergeInto, if_neg h.1, List.cons_append]
    rw [mergeInto_absent l n c h.2]

theorem extractFrom_enc : ∀ (tail acc : List (Namespace × Capability)),
    (∀ p ∈ tail, p.1.validB = true) →
    ((acc ++ tail).map (fun p => p.1)).Nodup →
    extractFrom ⟨acc⟩ (tail.map (fun p => encode_namespace p.1 p.2)) = .ok ⟨acc ++ tail⟩
  | [], acc, hv, hnd => by simp [extractFrom]
  | (n, c) :: tail, acc, hv, hnd => by
    have hvn : Namespace.validB n = true := hv (n, c) (by simp)
    have hpre := strHasPre_encode n c
    have hparse := parseCapResource_encode n c hvn
    have hnd2 : (acc.map (fun p => p.1) ++ (n :: tail.map (fun p => p.1))).Nodup := by
      simpa using hnd
    have hnotin : n ∉ acc.map (fun p => p.1) := by
      intro hmem
      exact (List.nodup_append.1 hnd2).2.2 hmem (by simp)
    simp only [List.map_cons, extractFrom, processResource, hpre, if_true, hparse,
      Set.mergeEntry]
    rw [mergeInto_absent acc n c hnotin]
    have hrec := extractFrom_enc tail (acc ++ [(n, c)])
      (fun p hp => hv p (by simp [hp]))
      (by simpa [List.append_assoc] using hnd)
    simpa [List.append_assoc] using hrec

theorem extract_buildWith (s : Set) (m : Message) (hwf : s.Wf)
    (hbase : ∀ r ∈ m.resources, strHasPre RESOURCE_PREFIX r = false) :
    extract_capabilities (buildWith s m) = .ok s := by
  obtain ⟨hnd, hv⟩ := hwf
  by_cases hemp : s.entries.isEmpty
  · have hs : s.entries = [] := by simpa [List.isEmpty_iff] using hemp
    simp only [buildWith, capabilities_to_statement, hemp, if_true]
    rw [extract_capabilities, extractFrom_skip _ _ hbase]
    obtain ⟨es⟩ := s
    simp only at hs
    rw [hs]
  · simp only [buildWith, capabilities_to_statement, hemp, Bool.false_eq_true, if_false]
    rw [extract_capabilities]
    simp only
    rw [extractFrom_append, extractFrom_skip _ _ hbase]
    have hrec := extractFrom_enc s.entries [] hv (by simpa using hnd)
    simpa using hrec

end Capgrok

namespace Capgrok

theorem strEndsWith_append (o g : String) : strEndsWith (o ++ g) g = true := by
  simp [strEndsWith, String.data_append, List.suffix_append]

theorem suffix_drop (l m : List Char) (h : l <:+ m) : m.drop (m.length - l.length) = l := by
  obtain ⟨p, rfl⟩ := h
  have hlen : (p ++ l).length - l.length = p.length := by
    simp [List.length_append]
  rw [hlen, List.drop_left]

theorem drop_one_append_eq : ∀ (l : List Char) (c : Char), l.drop 1 ++ [c] = l →
    ∀ a ∈ l, a = c
  | [], c, h, a, ha => absurd ha (List.not_mem_nil a)
  | [b], c, h, a, ha => by
    simp only [List.drop_succ_cons, List.drop_zero, List.nil_append, List.cons.injEq] at h
    simp only [List.mem_singleton] at ha
    rw [ha, h.1]
  | b :: d :: l, c, h, a, ha => by
    simp only [List.drop_succ_cons, List.drop_zero, List.cons_append, List.cons.injEq] at h
    obtain ⟨hdb, htail⟩ := h
    have hrec := drop_one_append_eq (d :: l) c (by
      simp only [List.drop_succ_cons, List.drop_zero]
      exact htail)
    simp only [List.mem_cons] at ha
    rcases ha with rfl | ha
    · rw [← hdb]
      exact hrec d (by simp)
    · exact hrec a (by simp [ha])

theorem not_suffix_push (pre : List Char) (c x y : Char) (rest : List Char) (hxy : x ≠ y) :
    ¬ ((x :: y :: rest) <:+ pre ++ (x :: y :: rest) ++ [c]) := by
  intro hsuf
  set g : List Char := x :: y :: rest with hg
  have hdrop := suffix_drop g _ hsuf
  have hlen : (pre ++ g ++ [c]).length - g.length = pre.length + 1 := by
    simp only [List.length_append, List.length_cons, List.length_nil]
    omega
  rw [hlen] at hdrop
  have h2 : (pre ++ g ++ [c]).drop (pre.length + 1) = g.drop 1 ++ [c] := by
    rw [List.append_assoc, List.drop_append]
    rw [hg]
    simp
  rw [h2] at hdrop
  have hall := drop_one_append_eq g c hdrop
  have hx : x = c := hall x (by simp [hg])
  have hy : y = c := hall y (by simp [hg])
  exact hxy (hx.trans hy.symm)

theorem statementOf_data (s : Set) (uri : String) :
    (statementOf s uri).data =
      statementHead.data ++ (uri.data ++ (statementTail s).data) := by
  simp [statementOf, String.data_append, List.append_assoc]

theorem statementHead_cons :
    statementHead.data = 'B' :: 'y' :: statementHead.data.drop 2 := rfl

theorem statementOf_head (s : Set) (uri : String) :
    ∃ rest, (statementOf s uri).data = 'B' :: 'y' :: rest := by
  refine ⟨statementHead.data.drop 2 ++ (uri.data ++ (statementTail s).data), ?_⟩
  rw [statementOf_data, statementHead_cons]
  simp

theorem strEndsWith_push_statement (w : String) (pre : List Char) (s : Set) (uri : String)
    (c : Char) (hw : w.data = pre ++ (statementOf s uri).data) :
    strEndsWith (w.push c) (statementOf s uri) = false := by
  obtain ⟨rest, hgdata⟩ := statementOf_head s uri
  apply decide_eq_false
  intro hsuf
  rw [String.data_push, hw, hgdata] at hsuf
  exact not_suffix_push pre c 'B' 'y' rest (by decide) hsuf

theorem strEndsWith_same_len (pre g g2 : String) (hlen : g2.data.length = g.data.length)
    (hsuf : strEndsWith (pre ++ g) g2 = true) : g2 = g := by
  simp only [strEndsWith, String.data_append, decide_eq_true_eq] at hsuf
  have hdrop := suffix_drop g2.data _ hsuf
  have hl2 : (pre.data ++ g.data).length - g2.data.length = pre.data.length := by
    simp [List.length_append, hlen]
  rw [hl2, List.drop_left] at hdrop
  exact (String.ext hdrop).symm

theorem statementOf_inj (s : Set) (u u2 : String) (hlen : u2.data.length = u.data.length)
    (heq : statementOf s u2 = statementOf s u) : u2 = u := by
  have h2 : statementHead.data ++ (u2.data ++ (statementTail s).data) =
      statementHead.data ++ (u.data ++ (statementTail s).data) := by
    rw [← statementOf_data, ← statementOf_data, heq]
  have h3 := List.append_cancel_left h2
  exact String.ext (List.append_inj h3 hlen).1

theorem statementOf_len (s : Set) (u u2 : String) (hlen : u2.data.length = u.data.length) :
    (statementOf s u2).data.length = (statementOf s u).data.length := by
  rw [statementOf_data, statementOf_data]
  simp [List.length_append, hlen]

end Capgrok

namespace Capgrok

theorem mergeInto_mem_keys (n : Namespace) (c : Capability) :
    ∀ (l : List (Namespace × Capability)), n ∈ (mergeInto n c l).map (fun p => p.1)
  | [] => by simp [mergeInto]
  | (m, d) :: l => by
    by_cases h : n = m
    · simp [mergeInto, if_pos h, h]
    · simp only [mergeInto, if_neg h, List.map_cons, List.mem_cons]
      exact Or.inr (mergeInto_mem_keys n c l)

theorem mergeInto_keys_sub (n : Namespace) (c : Capability) :
    ∀ (l : List (Namespace × Capability)) (k : Namespace),
      k ∈ l.map (fun p => p.1) → k ∈ (mergeInto n c l).map (fun p => p.1)
  | [], k, h => by simp at h
  | (m, d) :: l, k, h => by
    simp only [List.map_cons, List.mem_cons] at h
    by_cases hnm : n = m
    · simp only [mergeInto, if_pos hnm, List.map_cons, List.mem_cons]
      exact h
    · simp only [mergeInto, if_neg hnm, List.map_cons, List.mem_cons]
      rcases h with h | h
      · exact Or.inl h
      · exact Or.inr (mergeInto_keys_sub n c l k h)

theorem mergeInto_comm (n m : Namespace) (c d : Capability) (hnm : n ≠ m) :
    ∀ (l : List (Namespace × Capability)), n ∈ l.map (fun p => p.1) →
      mergeInto m d (mergeInto n c l) = mergeInto n c (mergeInto m d l)
  | [], h => by simp at h
  | (k, v) :: l, h => by
    by_cases hkn : n = k
    · have hmk : ¬ m = k := fun he => hnm (hkn.trans he.symm)
      simp only [mergeInto, if_pos hkn, if_neg hmk]
    · by_cases hkm : m = k
      · simp only [mergeInto, if_neg hkn, if_pos hkm]
      · have hmem : n ∈ l.map (fun p => p.1) := by
          simp only [List.map_cons, List.mem_cons] at h
          rcases h with h | h
          · exact absurd h hkn
          · exact h
        simp only [mergeInto, if_neg hkn, if_neg hkm]
        simp only [mergeInto, if_neg hkn, if_neg hkm, List.cons.injEq, true_and]
        exact mergeInto_comm n m c d hnm l hmem

theorem extract_mid_commute (n : Namespace) (c : Capability) :
    ∀ (mid : List String) (s : Set), n ∈ s.entries.map (fun p => p.1) →
      (∀ x ∈ mid, strHasPre RESOURCE_PREFIX x = false ∨
        ∃ m2 d, parseCapResource x = .ok (m2, d) ∧ m2 ≠ n) →
      extractFrom (s.mergeEntry n c) mid =
        (match extractFrom s mid with
          | .error e => .error e
          | .ok s2 => .ok (s2.mergeEntry n c))
  | [], s, hmem, hmid => by simp [extractFrom]
  | x :: mid, s, hmem, hmid => by
    rcases hmid x (by simp) with hx | ⟨m2, d, hparse, hne⟩
    · simp only [extractFrom, processResource, hx, Bool.false_eq_true, if_false]
      exact extract_mid_commute n c mid s hmem (fun y hy => hmid y (by simp [hy]))
    · by_cases hpre : strHasPre RESOURCE_PREFIX x = true
      · simp only [extractFrom, processResource, hpre, if_true, hparse]
        have hcomm : (s.mergeEntry n c).mergeEntry m2 d = (s.mergeEntry m2 d).mergeEntry n c := by
          simp only [Set.mergeEntry]
          exact congrArg Set.mk
            (mergeInto_comm n m2 c d (fun he => hne he.symm) s.entries hmem)
        rw [hcomm]
        exact extract_mid_commute n c mid (s.mergeEntry m2 d)
          (mergeInto_keys_sub m2 d s.entries n hmem)
          (fun y hy => hmid y (by simp [hy]))
      · have hx : strHasPre RESOURCE_PREFIX x = false := by
          simpa using hpre
        simp only [extractFrom, processResource, hx, Bool.false_eq_true, if_false]
        exact extract_mid_commute n c mid s hmem (fun y hy => hmid y (by simp [hy]))

theorem extract_interleave : ∀ (s0 : Set) (r1 mid r2 : List String) (a b : String)
    (n : Namespace) (ca cb : Capability),
    strHasPre RESOURCE_PREFIX a = true → parseCapResource a = .ok (n, ca) →
    strHasPre RESOURCE_PREFIX b = true → parseCapResource b = .ok (n, cb) →
    (∀ x ∈ mid, strHasPre RESOURCE_PREFIX x = false ∨
      ∃ m2 d, parseCapResource x = .ok (m2, d) ∧ m2 ≠ n) →
    extractFrom s0 (r1 ++ a :: (mid ++ b :: r2)) =
      extractFrom s0 (r1 ++ a :: b :: (mid ++ r2)) := by
  intro s0 r1 mid r2 a b n ca cb ha1 ha2 hb1 hb2 hmid
  rw [extractFrom_append, extractFrom_append]
  cases extractFrom s0 r1 with
  | error e => rfl
  | ok s1 =>
    have hcomm := extract_mid_commute n cb mid (s1.mergeEntry n ca)
      (by
        simp only [Set.mergeEntry]
        exact mergeInto_mem_keys n ca s1.entries)
      hmid
    simp only [extractFrom, processResource, ha1, if_true, ha2, hb1, hb2]
    rw [extractFrom_append]
    conv_rhs => rw [extractFrom_append, hcomm]
    cases extractFrom (s1.mergeEntry n ca) mid with
    | error e => rfl
    | ok s3 =>
      simp only [extractFrom, processResource, hb1, if_true, hb2]

end Capgrok

namespace Capgrok

theorem buildWith_nonempty (s : Set) (m : Message) (hne : ¬ s.entries.isEmpty = true) :
    buildWith s m = { m with
      statement := some (match m.statement with
        | none => statementOf s m.uri
        | some o => o ++ " " ++ statementOf s m.uri),
      resources := m.resources ++ s.entries.map (fun p => encode_namespace p.1 p.2) } := by
  simp [buildWith, capabilities_to_statement, hne]

theorem extractFrom_error_of_mem : ∀ (l : List String) (s : Set) (r : String) (e : Error),
    r ∈ l → strHasPre RESOURCE_PREFIX r = true → parseCapResource r = .error e →
    ∃ e2, extractFrom s l = .error e2
  | [], s, r, e, hr, hp, hd => absurd hr (List.not_mem_nil r)
  | x :: l, s, r, e, hr, hp, hd => by
    rcases List.mem_cons.1 hr with rfl | hr2
    · exact ⟨e, by simp [extractFrom, processResource, hp, hd]⟩
    · cases hx : processResource s x with
      | error e2 => exact ⟨e2, by simp [extractFrom, hx]⟩
      | ok s2 =>
        obtain ⟨e2, h2⟩ := extractFrom_error_of_mem l s2 r e hr2 hp hd
        exact ⟨e2, by simp [extractFrom, hx, h2]⟩

end Capgrok

namespace Capgrok

/-- Sample uri used in concrete instances. -/
def sampleUri : String := "did:key:example"

/-- Sample message with no statement and no resources. -/
def msgEmpty : Message :=
  ⟨"example.com", "addr", none, sampleUri, 1, 1, "mynonce1", "2022-06-21T12:00:00.000Z",
    none, none, none, []⟩

/-- Sample namespace. -/
def nsCredential : Namespace := ⟨"credential"⟩

/-- Sample grant Set with one namespace, a default action and one resource
action. -/
def sampleSet : Set := ⟨[(nsCredential, ⟨["present"], [("type1", ["present"])]⟩)]⟩

/-- Sample message carrying one malformed capability resource entry. -/
def msgBad : Message := { msgEmpty with resources := ["urn:capability:ns:!"] }

/-- C1: `verify_statement` compares the message statement with the statement
regenerated from the extracted capability Set and the message uri by a
three-way case split: both absent gives true; both present gives true exactly
when the statement ends with the generated text byte-for-byte, so an
arbitrary caller-chosen prefix is allowed; exactly one present gives false. -/
theorem verify_statement_three_way (m : Message) (S : Set)
    (h : extract_capabilities m = .ok S) :
    (m.statement = none → capabilities_to_statement S m.uri = none →
      verify_statement m = .ok true)
  ∧ (∀ o g, m.statement = some o → capabilities_to_statement S m.uri = some g →
      verify_statement m = .ok (strEndsWith o g))
  ∧ (m.statement.isSome ≠ (capabilities_to_statement S m.uri).isSome →
      verify_statement m = .ok false) := by
  refine ⟨?_, ?_, ?_⟩
  · intro h1 h2
    simp [verify_statement, h, h1, h2]
  · intro o g h1 h2
    simp [verify_statement, h, h1, h2]
  · intro hdiff
    cases h1 : m.statement with
    | none =>
      cases h2 : capabilities_to_statement S m.uri with
      | none =>
        rw [h1, h2] at hdiff
        simp at hdiff
      | some g => simp [verify_statement, h, h1, h2]
    | some o =>
      cases h2 : capabilities_to_statement S m.uri with
      | none => simp [verify_statement, h, h1, h2]
      | some g =>
        rw [h1, h2] at hdiff
        simp at hdiff

/-- Witness for C1 at a concrete message with no statement and no
capability resources. -/
theorem verify_statement_three_way_witness : verify_statement msgEmpty = .ok true :=
  (verify_statement_three_way msgEmpty ⟨[]⟩ rfl).1 rfl rfl

/-- C2: a capability-prefixed resource entry that fails to decode makes
`verify_statement` surface a typed decode error, never the boolean false;
an extraction error is propagated to the caller unchanged. -/
theorem verify_statement_decode_error (m : Message) (r : String) (e : Error)
    (hr : r ∈ m.resources) (hp : strHasPre RESOURCE_PREFIX r = true)
    (hd : parseCapResource r = .error e) :
    (∃ e2, verify_statement m = .error e2) ∧ (∀ b, verify_statement m ≠ .ok b) ∧
      (∀ e3, extract_capabilities m = .error e3 → verify_statement m = .error e3) := by
  obtain ⟨e2, h2⟩ := extractFrom_error_of_mem m.resources ⟨[]⟩ r e hr hp hd
  have hx : extract_capabilities m = .error e2 := h2
  refine ⟨⟨e2, by simp [verify_statement, hx]⟩, ?_, ?_⟩
  · intro b hb
    rw [verify_statement, hx] at hb
    cases hb
  · intro e3 h3
    simp [verify_statement, h3]

/-- Witness for C2 at a concrete message holding one malformed
capability-prefixed resource entry. -/
theorem verify_statement_decode_error_witness : ∃ e2, verify_statement msgBad = .error e2 :=
  (verify_statement_decode_error msgBad "urn:capability:ns:!" Error.DecodingFailure
    (by simp [msgBad, msgEmpty]) rfl rfl).1

/-- C9: the wire form of an encoded capability resource entry is the fixed
literal prefix, the namespace text, the delimiter, then the URL-safe unpadded
binary-to-text encoding of the structured payload; the constant is exactly
the literal of the source. -/
theorem wire_form (n : Namespace) (c : Capability) :
    RESOURCE_PREFIX = "urn:capability:" ∧
      encode_namespace n c =
        RESOURCE_PREFIX ++ n.text ++ ":" ++ String.mk (b64EncodeBytes (serCapability c)) :=
  ⟨rfl, rfl⟩

/-- C10: the result of `verify_statement` depends only on the statement, uri
and resources fields of the message. -/
theorem verify_statement_depends_only (m1 m2 : Message) (hs : m1.statement = m2.statement)
    (hu : m1.uri = m2.uri) (hr : m1.resources = m2.resources) :
    verify_statement m1 = verify_statement m2 := by
  simp only [verify_statement, extract_capabilities, hs, hu, hr]

/-- Witness for C10 at two concrete messages differing in domain, address,
chain id and nonce. -/
theorem verify_statement_depends_only_witness :
    verify_statement msgEmpty =
      verify_statement { msgEmpty with
        domain := "other.org", address := "addr2", chain_id := 5, nonce := "n2" } :=
  verify_statement_depends_only _ _ rfl rfl rfl

end Capgrok

namespace Capgrok

/-- Fresh message with a given uri: no statement, no resources. -/
def freshMessage (u : String) : Message :=
  ⟨"", "", none, u, 1, 1, "", "", none, none, none, []⟩

/-- C4: encoding a well-formed Set into a fresh message via the builder and
then extracting capabilities yields a Set structurally equal to the original:
the same namespace entries with the same default and per-resource action
sets. -/
theorem extract_roundtrip (s : Set) (u : String) (hwf : s.Wf) :
    extract_capabilities (buildWith s (freshMessage u)) = .ok s :=
  extract_buildWith s (freshMessage u) hwf (by simp [freshMessage])

/-- Witness for C4 at a concrete two-part Set and uri. -/
theorem extract_roundtrip_witness :
    extract_capabilities (buildWith sampleSet (freshMessage sampleUri)) = .ok sampleSet :=
  extract_roundtrip sampleSet sampleUri (by decide)

/-- Sample message with a pre-existing statement and no resources. -/
def msgWithStatement : Message := { msgEmpty with statement := some "Some custom statement." }

/-- C3 counterexample: a Builder with an empty Set applied to a message that
already carries a statement produces a message on which verify_statement
returns false, not true: the empty Set generates no text, so the three-way
comparison sees a present statement against an absent generated text. -/
theorem build_self_verify_fails :
    verify_statement (Builder.new.build msgWithStatement) = .ok false ∧
      verify_statement (Builder.new.build msgWithStatement) ≠ .ok true := by
  refine ⟨by decide, by decide⟩

/-- C3 amended: self-verification holds for every well-formed grant Set and
every base message whose resources carry no capability-prefixed entry,
provided the Set is non-empty or the base message carries no prior statement.
The exception is forced by the counterexample: an empty Set generates no
text, so a pre-existing statement cannot match it. -/
theorem build_self_verify (s : Set) (m : Message) (hwf : s.Wf)
    (hbase : ∀ r ∈ m.resources, strHasPre RESOURCE_PREFIX r = false)
    (hstmt : s.entries = [] → m.statement = none) :
    verify_statement (buildWith s m) = .ok true := by
  by_cases hemp : s.entries.isEmpty
  · have hs : s.entries = [] := by simpa [List.isEmpty_iff] using hemp
    have hm : m.statement = none := hstmt hs
    have hb : buildWith s m = m := by
      simp [buildWith, capabilities_to_statement, hemp]
    have hx : extract_capabilities m = .ok ⟨[]⟩ := by
      rw [extract_capabilities, extractFrom_skip _ _ hbase]
    rw [hb]
    simp [verify_statement, hx, capabilities_to_statement, hm]
  · have hext := extract_buildWith s m hwf hbase
    have hb := buildWith_nonempty s m hemp
    have hgen : capabilities_to_statement s m.uri = some (statementOf s m.uri) := by
      simp [capabilities_to_statement, hemp]
    simp only [verify_statement, hext]
    rw [hb]
    cases hms : m.statement with
    | none =>
      simp only [hms, hgen]
      simp [strEndsWith]
    | some o =>
      simp only [hms, hgen]
      simp only [Except.ok.injEq]
      exact strEndsWith_append (o ++ " ") (statementOf s m.uri)

/-- Witness for C3 amended: a non-empty Set built over a message that already
carries a statement verifies. -/
theorem build_self_verify_witness :
    verify_statement (buildWith sampleSet msgWithStatement) = .ok true :=
  build_self_verify sampleSet msgWithStatement (by decide)
    (by simp [msgWithStatement, msgEmpty])
    (fun h => List.noConfusion h)

end Capgrok

namespace Capgrok

theorem strEndsWith_same_len_data (w g g2 : String) (pre : List Char)
    (hw : w.data = pre ++ g.data) (hlen : g2.data.length = g.data.length)
    (hsuf : strEndsWith w g2 = true) : g2 = g := by
  simp only [strEndsWith, decide_eq_true_eq] at hsuf
  rw [hw] at hsuf
  have hdrop := suffix_drop g2.data _ hsuf
  have hl2 : (pre ++ g.data).length - g2.data.length = pre.length := by
    simp [List.length_append, hlen]
  rw [hl2, List.drop_left] at hdrop
  exact (String.ext hdrop).symm

/-- C5 counterexample: a message produced by Builder.build with a non-empty
grant Set over a base message holding one malformed capability entry; after
appending a character to the statement, verify_statement returns a decode
error, not the boolean false. -/
theorem statement_tamper_error :
    verify_statement { buildWith sampleSet msgBad with
      statement := (buildWith sampleSet msgBad).statement.map (fun o => o.push 'x') } =
      .error Error.DecodingFailure := by decide

/-- C5 amended: for every message produced by the builder from a well-formed
non-empty grant Set over a base message whose resources carry no
capability-prefixed entry, appending any single character to the statement
makes verify_statement return false.  The restriction on the base resources
is forced by the counterexample, where a malformed pre-existing capability
entry turns the result into a decode error instead. -/
theorem statement_tamper_detected (s : Set) (m : Message) (c : Char) (hwf : s.Wf)
    (hne : s.entries ≠ [])
    (hbase : ∀ r ∈ m.resources, strHasPre RESOURCE_PREFIX r = false) :
    verify_statement { buildWith s m with
      statement := (buildWith s m).statement.map (fun o => o.push c) } = .ok false := by
  have hemp : ¬ s.entries.isEmpty = true := by simpa [List.isEmpty_iff] using hne
  have hext := extract_buildWith s m hwf hbase
  have hb := buildWith_nonempty s m hemp
  have hgen : capabilities_to_statement s m.uri = some (statementOf s m.uri) := by
    simp [capabilities_to_statement, hemp]
  have hext2 : extract_capabilities { buildWith s m with
      statement := (buildWith s m).statement.map (fun o => o.push c) } = .ok s := by
    rw [extract_capabilities] at hext ⊢
    simpa using hext
  simp only [verify_statement, hext2]
  rw [hb]
  cases hms : m.statement with
  | none =>
    simp only [hms, hgen, Option.map_some']
    simp only [Except.ok.injEq]
    exact strEndsWith_push_statement _ [] s m.uri c (by simp)
  | some o =>
    simp only [hms, hgen, Option.map_some']
    simp only [Except.ok.injEq]
    exact strEndsWith_push_statement _ ((o ++ " ").data) s m.uri c
      (by rw [String.data_append])

/-- Witness for C5 amended at a concrete built message and character. -/
theorem statement_tamper_detected_witness :
    verify_statement { buildWith sampleSet msgEmpty with
      statement := (buildWith sampleSet msgEmpty).statement.map (fun o => o.push 'x') } =
      .ok false :=
  statement_tamper_detected sampleSet msgEmpty 'x' (by decide)
    (fun h => List.noConfusion h) (by simp [msgEmpty])

/-- Adversarial uri embedding the framing sentence of the generated
statement. -/
def trickUri : String := statementHead ++ "x"

/-- Sample message carrying the adversarial uri. -/
def msgTrick : Message := { msgEmpty with uri := trickUri }

/-- C6 counterexample: with the uri an opaque text, a built message whose
original uri embeds the framing sentence still verifies after the uri is
replaced by a different, shorter uri: the suffix comparison admits the
regenerated text as a suffix of the statement. -/
theorem uri_tamper_miss :
    ("x" : String) ≠ (buildWith sampleSet msgTrick).uri ∧
      verify_statement { buildWith sampleSet msgTrick with uri := "x" } = .ok true := by
  refine ⟨by decide, by decide⟩

/-- C6 amended: for every message produced by the builder from a well-formed
non-empty grant Set over a base message whose resources carry no
capability-prefixed entry, replacing the uri with a different uri of the same
length (statement and resources untouched) makes verify_statement return
false.  The same-length restriction is forced by the counterexample, where a
shorter uri whose framing-embedding original uri realigns the suffix
comparison is accepted. -/
theorem uri_tamper_detected (s : Set) (m : Message) (u2 : String) (hwf : s.Wf)
    (hne : s.entries ≠ [])
    (hbase : ∀ r ∈ m.resources, strHasPre RESOURCE_PREFIX r = false)
    (hlen : u2.data.length = m.uri.data.length) (hneq : u2 ≠ m.uri) :
    verify_statement { buildWith s m with uri := u2 } = .ok false := by
  have hemp : ¬ s.entries.isEmpty = true := by simpa [List.isEmpty_iff] using hne
  have hext := extract_buildWith s m hwf hbase
  have hb := buildWith_nonempty s m hemp
  have hgen2 : capabilities_to_statement s u2 = some (statementOf s u2) := by
    simp [capabilities_to_statement, hemp]
  have hext2 : extract_capabilities { buildWith s m with uri := u2 } = .ok s := by
    rw [extract_capabilities] at hext ⊢
    simpa using hext
  have hlen2 : (statementOf s u2).data.length = (statementOf s m.uri).data.length :=
    statementOf_len s m.uri u2 hlen
  simp only [verify_statement, hext2]
  rw [hb]
  cases hms : m.statement with
  | none =>
    simp only [hms, hgen2]
    cases hcmp : strEndsWith (statementOf s m.uri) (statementOf s u2) with
    | false => rfl
    | true =>
      exfalso
      have heq := strEndsWith_same_len_data (statementOf s m.uri) (statementOf s m.uri)
        (statementOf s u2) [] (by simp) hlen2 hcmp
      exact hneq (statementOf_inj s m.uri u2 hlen heq)
  | some o =>
    simp only [hms, hgen2]
    cases hcmp : strEndsWith (o ++ " " ++ statementOf s m.uri) (statementOf s u2) with
    | false => rfl
    | true =>
      exfalso
      have heq := strEndsWith_same_len_data (o ++ " " ++ statementOf s m.uri)
        (statementOf s m.uri) (statementOf s u2) ((o ++ " ").data)
        (by rw [String.data_append]) hlen2 hcmp
      exact hneq (statementOf_inj s m.uri u2 hlen heq)

/-- Witness for C6 amended at a concrete built message and a same-length
different uri. -/
theorem uri_tamper_detected_witness :
    verify_statement { buildWith sampleSet msgEmpty with uri := "did:key:altered" } =
      .ok false :=
  uri_tamper_detected sampleSet msgEmpty "did:key:altered" (by decide)
    (fun h => List.noConfusion h) (by simp [msgEmpty]) (by decide) (by decide)

end Capgrok

namespace Capgrok

/-- C7: interleaving invariance: two capability entries for the same
namespace may be separated by unrelated entries (non-capability, or
capability entries of another namespace) without changing the extracted Set,
because the per-namespace merge is a union; consequently verify_statement is
unchanged, and a message verifying in the adjacent arrangement verifies
interleaved. -/
theorem extract_interleaving_invariance (m : Message) (r1 mid r2 : List String) (a b : String)
    (n : Namespace) (ca cb : Capability)
    (ha1 : strHasPre RESOURCE_PREFIX a = true) (ha2 : parseCapResource a = .ok (n, ca))
    (hb1 : strHasPre RESOURCE_PREFIX b = true) (hb2 : parseCapResource b = .ok (n, cb))
    (hmid : ∀ x ∈ mid, strHasPre RESOURCE_PREFIX x = false ∨
      ∃ m2 d, parseCapResource x = .ok (m2, d) ∧ m2 ≠ n) :
    extract_capabilities { m with resources := r1 ++ a :: (mid ++ b :: r2) } =
      extract_capabilities { m with resources := r1 ++ a :: b :: (mid ++ r2) } ∧
    verify_statement { m with resources := r1 ++ a :: (mid ++ b :: r2) } =
      verify_statement { m with resources := r1 ++ a :: b :: (mid ++ r2) } ∧
    (verify_statement { m with resources := r1 ++ a :: b :: (mid ++ r2) } = .ok true →
      verify_statement { m with resources := r1 ++ a :: (mid ++ b :: r2) } = .ok true) := by
  have hext : extract_capabilities { m with resources := r1 ++ a :: (mid ++ b :: r2) } =
      extract_capabilities { m with resources := r1 ++ a :: b :: (mid ++ r2) } := by
    simp only [extract_capabilities]
    exact extract_interleave ⟨[]⟩ r1 mid r2 a b n ca cb ha1 ha2 hb1 hb2 hmid
  have hver : verify_statement { m with resources := r1 ++ a :: (mid ++ b :: r2) } =
      verify_statement { m with resources := r1 ++ a :: b :: (mid ++ r2) } := by
    simp only [verify_statement, hext]
  exact ⟨hext, hver, fun h => hver.trans h⟩

/-- Encoded entry granting a default action under the sample namespace. -/
def encCredA : String := encode_namespace nsCredential ⟨["present"], []⟩

/-- Encoded entry granting a resource action under the sample namespace. -/
def encCredB : String := encode_namespace nsCredential ⟨[], [("type1", ["present"])]⟩

/-- Encoded entry for a second namespace. -/
def encKepler : String := encode_namespace ⟨"kepler"⟩ ⟨["list"], []⟩

/-- Witness for C7 at a concrete interleaving: the two entries of the sample
namespace are separated by an ordinary resource and an entry of another
namespace. -/
theorem extract_interleaving_invariance_witness :
    extract_capabilities { msgEmpty with
        resources := [encCredA, "https://ordinary.example", encKepler, encCredB] } =
      extract_capabilities { msgEmpty with
        resources := [encCredA, encCredB, "https://ordinary.example", encKepler] } :=
  (extract_interleaving_invariance msgEmpty [] ["https://ordinary.example", encKepler] []
    encCredA encCredB nsCredential ⟨["present"], []⟩ ⟨[], [("type1", ["present"])]⟩
    rfl rfl rfl rfl
    (by
      intro x hx
      simp only [List.mem_cons, List.not_mem_nil, or_false] at hx
      rcases hx with rfl | rfl
      · exact Or.inl rfl
      · exact Or.inr ⟨⟨"kepler"⟩, ⟨["list"], []⟩, rfl, by decide⟩)).1

/-- Sample base message already carrying one valid capability entry. -/
def msgPreCap : Message := { msgEmpty with resources := [encCredA] }

/-- C8 counterexample: the empty builder leaves a message unchanged, but when
the untouched resources already carry a capability entry the extracted Set is
non-empty while the statement is absent, so verify_statement returns false,
not true. -/
theorem empty_builder_verify_fails :
    Builder.new.build msgPreCap = msgPreCap ∧
      verify_statement (Builder.new.build msgPreCap) = .ok false := by
  exact ⟨rfl, by decide⟩

/-- C8 amended: a Builder with no declarations leaves any message entirely
unchanged (statement absent stays absent, resources unchanged in order);
when additionally no resource entry bears the capability prefix and the
message carries no statement, verify_statement on the result returns true.
The no-capability restriction is forced by the counterexample, where
untouched pre-existing capability entries make the comparison fail. -/
theorem empty_builder_identity (m : Message) :
    Builder.new.build m = m ∧
    ((∀ r ∈ m.resources, strHasPre RESOURCE_PREFIX r = false) → m.statement = none →
      verify_statement (Builder.new.build m) = .ok true) := by
  have hb : Builder.new.build m = m := rfl
  refine ⟨hb, ?_⟩
  intro hbase hstmt
  rw [hb]
  have hx : extract_capabilities m = .ok ⟨[]⟩ := by
    rw [extract_capabilities, extractFrom_skip _ _ hbase]
  simp [verify_statement, hx, capabilities_to_statement, hstmt]

/-- Witness for C8 amended at a concrete message with no statement and no
capability resources. -/
theorem empty_builder_identity_witness :
    Builder.new.build msgEmpty = msgEmpty ∧
      verify_statement (Builder.new.build msgEmpty) = .ok true :=
  ⟨(empty_builder_identity msgEmpty).1,
    (empty_builder_identity msgEmpty).2 (by simp [msgEmpty]) rfl⟩

end Capgrok
